import Mathlib

/-!
Verification of the `ifacepicker` interface-listing parser (src/main.cpp).

The program reads the output of a listing command line by line and builds a
vector of pairs (interface name, IP address).  We embed the parsing loop of
`main` (src/main.cpp lines 70-130) as a state machine over a list of lines,
where a line is a `List Char`.  The held `interfaceName` variable together
with the control position (outer loop vs. inner loop) is modelled by an
`Option Line`: `none` is the outer loop (no interface held, `interfaceName`
cleared), `some n` is the inner loop holding name `n`.

String primitives are modelled after the C++ calls used by the source:
`std::string::find` of a pattern (`findSub`), `find` of a single character
from a position (`findChar` on the dropped suffix), and `substr` (`drop`
and `take`, with the `size_t` wrap of `pos - 3` made explicit).
-/

namespace IfacePicker

abbrev Line := List Char

/-- `beginsWith pat l` holds when `pat` is a prefix of `l` (helper for
modelling `std::string::find` of a multi-character pattern). -/
def beginsWith : Line → Line → Bool
  | [], _ => true
  | _ :: _, [] => false
  | a :: as, b :: bs => a = b && beginsWith as bs

/-- Model of `line.find(pat)`: index of the first occurrence of `pat` in
`l`, `none` for `npos`. -/
def findSub (pat : Line) : Line → Option Nat
  | [] => if beginsWith pat [] then some 0 else none
  | c :: t => if beginsWith pat (c :: t) then some 0 else (findSub pat t).map (· + 1)

/-- Model of `line.find(c, pos)` restricted to the suffix `line.drop pos`:
index of the first occurrence of character `c`, `none` for `npos`. -/
def findChar (c : Char) : Line → Option Nat
  | [] => none
  | d :: t => if d = c then some 0 else (findChar c t).map (· + 1)

/-- The header marker `": <"` searched for at src/main.cpp:82 and :97. -/
def headerPat : Line := [':', ' ', '<']

/-- The address marker `"inet "` searched for at src/main.cpp:112. -/
def inetPat : Line := ['i', 'n', 'e', 't', ' ']

/-- The sentinel `"<no ip address>"` used at src/main.cpp:104, :129, :154. -/
def sentinel : Line := ['<', 'n', 'o', ' ', 'i', 'p', ' ', 'a', 'd', 'd', 'r', 'e', 's', 's', '>']

/-- Position of the header marker in a line (`line.find(": <")`). -/
def headerPos (l : Line) : Option Nat := findSub headerPat l

/-- A line is a header line when it contains the header marker. -/
def isHeader (l : Line) : Bool := (headerPos l).isSome

/-- A line contains the address marker `"inet "`. -/
def hasInet (l : Line) : Bool := (findSub inetPat l).isSome

/-- Model of `line.substr(3, pos - 3)` (src/main.cpp:89 and :107) where
`pos` is the header-marker position.  `pos - 3` is computed in `size_t`:
for `pos < 3` it wraps to a value at least `2^64 - 3`, which `substr`
clamps to the rest of the string, hence the case split. -/
def extractName (l : Line) (p : Nat) : Line :=
  if p < 3 then l.drop 3 else (l.drop 3).take (p - 3)

/-- Model of `line.substr(pos, line.find('/', pos) - pos)` with
`pos = (marker index) + 5` (src/main.cpp:115-116).  When no `/` is found,
`npos - pos` wraps large and `substr` clamps to the rest of the line. -/
def inetAddr (l : Line) (p : Nat) : Line :=
  let t := l.drop (p + 5)
  match findChar '/' t with
  | some s => t.take s
  | none => t

/-- The name a header line contributes (`extractName` at its marker). -/
def lineName (l : Line) : Line :=
  match headerPos l with
  | some p => extractName l p
  | none => []

/-- State transition for one line.  A header line adopts its extracted
name (src/main.cpp:89, :107); an `inet ` line while an interface is held
clears the state (src/main.cpp:120-122); otherwise the state is kept. -/
def stepState (st : Option Line) (l : Line) : Option Line :=
  match headerPos l with
  | some p => some (extractName l p)
  | none =>
    match st with
    | none => none
    | some n =>
      match findSub inetPat l with
      | some _ => none
      | none => some n

/-- Records appended while processing one line: a header line while an
interface is held emits it with the sentinel (src/main.cpp:104); an
`inet ` line while an interface is held emits it with the extracted
address (src/main.cpp:117); nothing otherwise. -/
def lineOut (st : Option Line) (l : Line) : List (Line × Line) :=
  match st with
  | none => []
  | some n =>
    match headerPos l with
    | some _ => [(n, sentinel)]
    | none =>
      match findSub inetPat l with
      | some p => [(n, inetAddr l p)]
      | none => []

/-- End-of-input flush (src/main.cpp:127-130): the held interface is
emitted with the sentinel only when its name is non-empty. -/
def flushState : Option Line → List (Line × Line)
  | none => []
  | some n => if n = [] then [] else [(n, sentinel)]

/-- The parsing loops of `main` (src/main.cpp:77-130) as one pass over
the remaining lines from a given state, followed by the flush. -/
def parseLines : Option Line → List Line → List (Line × Line)
  | st, [] => flushState st
  | st, l :: ls => lineOut st l ++ parseLines (stepState st l) ls

/-- The whole parse of an input line sequence: the loops start in the
outer loop with `interfaceName` empty. -/
def parse (ls : List Line) : List (Line × Line) := parseLines none ls

/-- Number of header-marker lines in the input. -/
def headerCount (ls : List Line) : Nat := (ls.filter isHeader).length

/-- Outputs of the scan alone (no end-of-input flush). -/
def scanOut : Option Line → List Line → List (Line × Line)
  | _, [] => []
  | st, l :: ls => lineOut st l ++ scanOut (stepState st l) ls

/-- State after scanning a list of lines. -/
def scanState (st : Option Line) (ls : List Line) : Option Line :=
  List.foldl stepState st ls

/-- 0/1 measure of a held interface. -/
def optCount : Option Line → Nat
  | none => 0
  | some _ => 1

/-! ### Basic list-indexing helpers -/

theorem getq_append_left {α : Type} (P Q : List α) (n : Nat) (h : n < P.length) :
    (P ++ Q).get? n = P.get? n := by
  induction P generalizing n with
  | nil => simp at h
  | cons x t ih =>
    cases n with
    | zero => rfl
    | succ m => simpa using ih m (by simpa using h)

theorem getq_append_mid {α : Type} (P : List α) (x : α) (Q : List α) :
    (P ++ x :: Q).get? P.length = some x := by
  induction P with
  | nil => rfl
  | cons y t ih => simpa using ih

theorem getq_ge {α : Type} (l : List α) (n : Nat) (h : l.length ≤ n) :
    l.get? n = none := by
  induction l generalizing n with
  | nil => rfl
  | cons x t ih =>
    cases n with
    | zero => simp at h
    | succ m => simpa using ih m (by simpa using h)

theorem getq_isSome {α : Type} (l : List α) (n : Nat) (h : n < l.length) :
    (l.get? n).isSome = true := by
  induction l generalizing n with
  | nil => simp at h
  | cons x t ih =>
    cases n with
    | zero => rfl
    | succ m => simpa using ih m (by simp at h; omega)

theorem getq_some_lt {α : Type} (l : List α) (n : Nat) (a : α) (h : l.get? n = some a) :
    n < l.length := by
  induction l generalizing n with
  | nil => simp [List.get?] at h
  | cons x t ih =>
    cases n with
    | zero => simp
    | succ m => simpa using ih m (by simpa using h)

theorem getq_map {α β : Type} (f : α → β) (l : List α) (n : Nat) :
    (l.map f).get? n = (l.get? n).map f := by
  induction l generalizing n with
  | nil => rfl
  | cons x t ih =>
    cases n with
    | zero => rfl
    | succ m => simpa using ih m

/-! ### Marker facts -/

theorem headerPos_eq_none (l : Line) (h : isHeader l = false) : headerPos l = none := by
  unfold isHeader at h
  cases hh : headerPos l with
  | none => rfl
  | some p => rw [hh] at h; simp at h

theorem inetPos_eq_none (l : Line) (h : hasInet l = false) : findSub inetPat l = none := by
  unfold hasInet at h
  cases hh : findSub inetPat l with
  | none => rfl
  | some p => rw [hh] at h; simp at h

theorem isHeader_of_pos (l : Line) (p : Nat) (h : headerPos l = some p) :
    isHeader l = true := by
  simp [isHeader, h]

theorem headerPos_of_isHeader (l : Line) (h : isHeader l = true) :
    ∃ p, headerPos l = some p := by
  unfold isHeader at h
  cases hh : headerPos l with
  | none => rw [hh] at h; simp at h
  | some p => exact ⟨p, rfl⟩

theorem inetPos_of_hasInet (l : Line) (h : hasInet l = true) :
    ∃ q, findSub inetPat l = some q := by
  unfold hasInet at h
  cases hh : findSub inetPat l with
  | none => rw [hh] at h; simp at h
  | some q => exact ⟨q, rfl⟩

/-! ### One-step facts about the scan -/

theorem parseLines_skip (st : Option Line) (l : Line) (ls : List Line)
    (h1 : isHeader l = false) (h2 : hasInet l = false) :
    parseLines st (l :: ls) = parseLines st ls := by
  have hh := headerPos_eq_none l h1
  have hi := inetPos_eq_none l h2
  cases st <;> simp [parseLines, lineOut, stepState, hh, hi]

theorem parseLines_none_skip (l : Line) (ls : List Line) (h1 : isHeader l = false) :
    parseLines none (l :: ls) = parseLines none ls := by
  have hh := headerPos_eq_none l h1
  cases hi : findSub inetPat l <;> simp [parseLines, lineOut, stepState, hh, hi]

theorem parseLines_clean (st : Option Line) (mid ys : List Line)
    (hc : ∀ l ∈ mid, isHeader l = false ∧ hasInet l = false) :
    parseLines st (mid ++ ys) = parseLines st ys := by
  induction mid with
  | nil => rfl
  | cons l t ih =>
    have hl := hc l (by simp)
    rw [List.cons_append, parseLines_skip st l _ hl.1 hl.2]
    exact ih (fun x hx => hc x (by simp [hx]))

theorem parseLines_header_some (n l : Line) (ls : List Line) (p : Nat)
    (hp : headerPos l = some p) :
    parseLines (some n) (l :: ls) = (n, sentinel) :: parseLines (some (extractName l p)) ls := by
  simp [parseLines, lineOut, stepState, hp]

theorem parseLines_inet (n l : Line) (ls : List Line) (q : Nat)
    (h1 : headerPos l = none) (h2 : findSub inetPat l = some q) :
    parseLines (some n) (l :: ls) = (n, inetAddr l q) :: parseLines none ls := by
  simp [parseLines, lineOut, stepState, h1, h2]

/-! ### Decomposing a run -/

theorem parseLines_append (st : Option Line) (xs ys : List Line) :
    parseLines st (xs ++ ys) = scanOut st xs ++ parseLines (scanState st xs) ys := by
  induction xs generalizing st with
  | nil => simp [scanOut, scanState]
  | cons l t ih =>
    simp only [List.cons_append, parseLines, scanOut, scanState, List.foldl_cons,
      List.append_assoc, List.append_eq]
    rw [ih (stepState st l)]
    rfl

theorem lineOut_length (st : Option Line) (l : Line) :
    (lineOut st l).length + optCount (stepState st l)
      = (if isHeader l then 1 else 0) + optCount st := by
  cases hh : headerPos l with
  | some p => cases st <;> simp [lineOut, stepState, isHeader, hh, optCount]
  | none =>
    cases st with
    | none => simp [lineOut, stepState, isHeader, hh, optCount]
    | some n =>
      cases hi : findSub inetPat l <;>
        simp [lineOut, stepState, isHeader, hh, hi, optCount]

theorem scanOut_length (st : Option Line) (ls : List Line) :
    (scanOut st ls).length + optCount (scanState st ls)
      = headerCount ls + optCount st := by
  induction ls generalizing st with
  | nil => simp [scanOut, scanState, headerCount]
  | cons l t ih =>
    have hline := lineOut_length st l
    have hrec := ih (stepState st l)
    have hc : headerCount (l :: t) = (if isHeader l then 1 else 0) + headerCount t := by
      simp only [headerCount, List.filter]
      cases h : isHeader l <;> simp <;> omega
    simp only [scanOut, scanState, List.foldl_cons, List.length_append] at hrec ⊢
    omega

theorem headerCount_cons (l : Line) (ls : List Line) :
    headerCount (l :: ls) = (if isHeader l then 1 else 0) + headerCount ls := by
  simp only [headerCount, List.filter]
  cases h : isHeader l <;> simp <;> omega

/-- Core block decomposition: the records before the one contributed by a
header line `h` number exactly the header lines of the preceding input,
whatever that input is. -/
theorem parse_block (pre : List Line) (h : Line) (p : Nat) (hp : headerPos h = some p) :
    ∃ P : List (Line × Line), P.length = headerCount pre ∧
      ∀ ys, parse (pre ++ h :: ys) = P ++ parseLines (some (extractName h p)) ys := by
  refine ⟨scanOut none pre ++ lineOut (scanState none pre) h, ?_, ?_⟩
  · have hs := scanOut_length none pre
    have hl : (lineOut (scanState none pre) h).length = optCount (scanState none pre) := by
      cases hst : scanState none pre <;> simp [lineOut, hp, optCount]
    simp only [List.length_append, hl, optCount] at hs ⊢
    omega
  · intro ys
    rw [parse, parseLines_append, List.append_assoc]
    have hstep : ∀ st : Option Line, parseLines st (h :: ys)
        = lineOut st h ++ parseLines (some (extractName h p)) ys := by
      intro st
      simp [parseLines, stepState, hp]
    rw [hstep]

/-! ### Length and order invariants of a run -/

/-- When every header line of the remaining input extracts a non-empty
name and the held name (if any) is non-empty, the run emits one record
per remaining header line plus one for the held interface. -/
theorem parseLines_length (ls : List Line) : ∀ st : Option Line,
    (∀ n, st = some n → n ≠ []) →
    (∀ l ∈ ls, isHeader l = true → lineName l ≠ []) →
    (parseLines st ls).length = headerCount ls + optCount st := by
  induction ls with
  | nil =>
    intro st hst _
    cases st with
    | none => simp [parseLines, flushState, headerCount, optCount]
    | some n =>
      have := hst n rfl
      simp [parseLines, flushState, headerCount, optCount, this]
  | cons l t ih =>
    intro st hst hls
    have htl : ∀ x ∈ t, isHeader x = true → lineName x ≠ [] :=
      fun x hx => hls x (by simp [hx])
    cases hh : headerPos l with
    | some p =>
      have hname : extractName l p ≠ [] := by
        have := hls l (by simp) (isHeader_of_pos l p hh)
        simpa [lineName, hh] using this
      have hrec := ih (some (extractName l p))
        (by intro n hn; injection hn with hn; rw [← hn]; exact hname) htl
      have hHl : isHeader l = true := isHeader_of_pos l p hh
      cases st with
      | none =>
        simp only [parseLines, lineOut, stepState, hh, headerCount_cons, hHl,
          List.length_append, hrec, optCount]
        simp [optCount]
        omega
      | some n =>
        simp only [parseLines, lineOut, stepState, hh, headerCount_cons, hHl,
          List.length_append, hrec, optCount]
        simp [optCount]
        omega
    | none =>
      have hHl : isHeader l = false := by simp [isHeader, hh]
      cases st with
      | none =>
        have hrec := ih none (by intro n hn; cases hn) htl
        simp only [parseLines, lineOut, stepState, hh, headerCount_cons, hHl,
          List.length_append, hrec, optCount]
        simp
      | some n =>
        cases hi : findSub inetPat l with
        | some q =>
          have hrec := ih none (by intro m hm; cases hm) htl
          simp only [parseLines, lineOut, stepState, hh, hi, headerCount_cons, hHl,
            List.length_append, hrec, optCount]
          simp [optCount]
          omega
        | none =>
          have hrec := ih (some n) hst htl
          simp only [parseLines, lineOut, stepState, hh, hi, headerCount_cons, hHl,
            List.length_append, hrec, optCount]
          simp

/-- An input with no header line parses to the empty sequence. -/
theorem parse_no_header (ls : List Line) (h : headerCount ls = 0) : parse ls = [] := by
  induction ls with
  | nil => rfl
  | cons l t ih =>
    rw [headerCount_cons] at h
    have hHl : isHeader l = false := by
      cases hl : isHeader l
      · rfl
      · rw [hl] at h; simp at h
    rw [parse, parseLines_none_skip l t hHl]
    have ht : headerCount t = 0 := by rw [hHl] at h; simpa using h
    exact ih ht

/-- Every record of a run takes its name either from the held state or
from a header line of the input; all such names non-empty forces all
record names non-empty. -/
theorem parseLines_names (ls : List Line) : ∀ st : Option Line,
    (∀ n, st = some n → n ≠ []) →
    (∀ l ∈ ls, isHeader l = true → lineName l ≠ []) →
    ∀ r ∈ parseLines st ls, r.1 ≠ [] := by
  induction ls with
  | nil =>
    intro st hst _ r hr
    cases st with
    | none => simp [parseLines, flushState] at hr
    | some n =>
      by_cases hn : n = []
      · simp [parseLines, flushState, hn] at hr
      · simp [parseLines, flushState, hn] at hr
        rw [hr]
        simpa using hn
  | cons l t ih =>
    intro st hst hls r hr
    have htl : ∀ x ∈ t, isHeader x = true → lineName x ≠ [] :=
      fun x hx => hls x (by simp [hx])
    cases hh : headerPos l with
    | some p =>
      have hname : extractName l p ≠ [] := by
        have := hls l (by simp) (isHeader_of_pos l p hh)
        simpa [lineName, hh] using this
      have hok : ∀ n, (some (extractName l p) : Option Line) = some n → n ≠ [] := by
        intro n hn
        injection hn with hn
        rw [← hn]
        exact hname
      cases st with
      | none =>
        rw [parseLines] at hr
        simp only [lineOut, stepState, hh, List.nil_append] at hr
        exact ih (some (extractName l p)) hok htl r hr
      | some n =>
        rw [parseLines] at hr
        simp only [lineOut, stepState, hh, List.cons_append, List.nil_append,
          List.mem_cons] at hr
        cases hr with
        | inl he => rw [he]; exact hst n rfl
        | inr he => exact ih (some (extractName l p)) hok htl r he
    | none =>
      cases st with
      | none =>
        rw [parseLines] at hr
        simp only [lineOut, stepState, hh, List.nil_append] at hr
        exact ih none (by intro n hn; cases hn) htl r hr
      | some n =>
        cases hi : findSub inetPat l with
        | some q =>
          rw [parseLines] at hr
          simp only [lineOut, stepState, hh, hi, List.cons_append, List.nil_append,
            List.mem_cons] at hr
          cases hr with
          | inl he => rw [he]; exact hst n rfl
          | inr he => exact ih none (by intro m hm; cases hm) htl r he
        | none =>
          rw [parseLines] at hr
          simp only [lineOut, stepState, hh, hi, List.nil_append] at hr
          exact ih (some n) hst htl r hr

/-- The (possibly singleton) name list of a held state. -/
def optNames : Option Line → List Line
  | none => []
  | some n => [n]

/-- The record names of a run extend to the held name followed by the
extracted names of the header lines, in input order (the run may fall one
short when the run's final flush drops an empty held name). -/
theorem names_agree (ls : List Line) : ∀ st : Option Line,
    ∃ t, (parseLines st ls).map Prod.fst ++ t
      = optNames st ++ (ls.filter isHeader).map lineName := by
  induction ls with
  | nil =>
    intro st
    cases st with
    | none => exact ⟨[], rfl⟩
    | some n =>
      by_cases hn : n = []
      · exact ⟨[n], by simp [parseLines, flushState, optNames, hn]⟩
      · exact ⟨[], by simp [parseLines, flushState, optNames, hn]⟩
  | cons l t ih =>
    intro st
    cases hh : headerPos l with
    | some p =>
      have hfil : (l :: t).filter isHeader = l :: t.filter isHeader := by
        rw [List.filter_cons]
        simp [isHeader_of_pos l p hh]
      have hnm : lineName l = extractName l p := by simp [lineName, hh]
      obtain ⟨tt, htt⟩ := ih (some (extractName l p))
      simp only [optNames, List.cons_append, List.nil_append] at htt
      cases st with
      | none =>
        refine ⟨tt, ?_⟩
        rw [parseLines]
        simp only [lineOut, stepState, hh, List.nil_append, optNames, hfil,
          List.map_cons, hnm]
        exact htt
      | some n =>
        refine ⟨tt, ?_⟩
        rw [parseLines]
        simp only [lineOut, stepState, hh, List.cons_append, List.nil_append, optNames,
          hfil, List.map_cons, List.map_append, hnm]
        rw [htt]
    | none =>
      have hHl : isHeader l = false := by simp [isHeader, hh]
      have hfil : (l :: t).filter isHeader = t.filter isHeader := by
        rw [List.filter_cons]
        simp [hHl]
      cases st with
      | none =>
        obtain ⟨tt, htt⟩ := ih none
        refine ⟨tt, ?_⟩
        rw [parseLines]
        simp only [lineOut, stepState, hh, List.nil_append, hfil]
        exact htt
      | some n =>
        cases hi : findSub inetPat l with
        | some q =>
          obtain ⟨tt, htt⟩ := ih none
          simp only [optNames, List.nil_append] at htt
          refine ⟨tt, ?_⟩
          rw [parseLines]
          simp only [lineOut, stepState, hh, hi, List.cons_append, List.nil_append,
            optNames, hfil, List.map_cons]
          rw [htt]
        | none =>
          obtain ⟨tt, htt⟩ := ih (some n)
          refine ⟨tt, ?_⟩
          rw [parseLines]
          simp only [lineOut, stepState, hh, hi, List.nil_append, hfil]
          exact htt

/-! ### Sample lines used to instantiate the hypotheses of the theorems -/

/-- A realistic header line (its marker sits at index 5). -/
def sampleH : Line := ("1: lo: <LOOPBACK,UP>").toList

/-- A continuation line containing neither marker. -/
def sampleMid : Line := ("    link-layer 00:00:00:00:00:00 brd").toList

/-- An address line with a prefix-length delimiter. -/
def sampleA : Line := ("    inet 127.0.0.1/8 scope host lo").toList

/-- An address line with no delimiter after the address. -/
def sampleA2 : Line := ("    inet 10.0.0.1").toList

/-- A second realistic header line. -/
def sampleH2 : Line := ("2: eth0: <BROADCAST,MULTICAST>").toList

/-- A header line whose marker sits at index 3, so that
`substr(3, pos - 3)` extracts the empty name. -/
def oddH : Line := ("12:: <UP>").toList

/-! ### Claim theorems -/

/-- Claim C3 (confirmed): for an interface whose header line is followed,
before the next header-marker line or end of input, by a line containing
the `inet ` marker with a `/` after it, the emitted record carries as its
address exactly the substring of that line strictly between the end of the
marker and the next `/`. -/
theorem C3_inet_address (pre : List Line) (h : Line) (mid : List Line) (a : Line)
    (rest : List Line) (q s : Nat)
    (hH : isHeader h = true)
    (hmid : ∀ l ∈ mid, isHeader l = false ∧ hasInet l = false)
    (hna : isHeader a = false)
    (hq : findSub inetPat a = some q)
    (hs : findChar '/' (a.drop (q + 5)) = some s) :
    (parse (pre ++ h :: (mid ++ a :: rest))).get? (headerCount pre)
      = some (lineName h, (a.drop (q + 5)).take s) := by
  obtain ⟨p, hp⟩ := headerPos_of_isHeader h hH
  obtain ⟨P, hPlen, hPeq⟩ := parse_block pre h p hp
  rw [hPeq (mid ++ a :: rest), parseLines_clean _ mid _ hmid,
    parseLines_inet _ a rest q (headerPos_eq_none a hna) hq, ← hPlen, getq_append_mid]
  simp [lineName, hp, inetAddr, hs]

/-- Witness for C3 at a concrete input. -/
theorem C3_inet_address_witness :
    (parse ([] ++ sampleH :: ([sampleMid] ++ sampleA :: []))).get? (headerCount [])
      = some (lineName sampleH, (sampleA.drop (4 + 5)).take 9) :=
  C3_inet_address [] sampleH [sampleMid] sampleA [] 4 9 (by decide) (by decide) (by decide)
    (by decide) (by decide)

/-- Claim C10 (confirmed): for an `inet ` line with no `/` after the
marker, the parser neither fails nor skips the line: the emitted address
is the entire remainder of the line after the marker. -/
theorem C10_no_slash_rest (pre : List Line) (h : Line) (mid : List Line) (a : Line)
    (rest : List Line) (q : Nat)
    (hH : isHeader h = true)
    (hmid : ∀ l ∈ mid, isHeader l = false ∧ hasInet l = false)
    (hna : isHeader a = false)
    (hq : findSub inetPat a = some q)
    (hs : findChar '/' (a.drop (q + 5)) = none) :
    (parse (pre ++ h :: (mid ++ a :: rest))).get? (headerCount pre)
      = some (lineName h, a.drop (q + 5)) := by
  obtain ⟨p, hp⟩ := headerPos_of_isHeader h hH
  obtain ⟨P, hPlen, hPeq⟩ := parse_block pre h p hp
  rw [hPeq (mid ++ a :: rest), parseLines_clean _ mid _ hmid,
    parseLines_inet _ a rest q (headerPos_eq_none a hna) hq, ← hPlen, getq_append_mid]
  simp [lineName, hp, inetAddr, hs]

/-- Witness for C10 at a concrete input. -/
theorem C10_no_slash_rest_witness :
    (parse ([] ++ sampleH :: ([sampleMid] ++ sampleA2 :: []))).get? (headerCount [])
      = some (lineName sampleH, sampleA2.drop (4 + 5)) :=
  C10_no_slash_rest [] sampleH [sampleMid] sampleA2 [] 4 (by decide) (by decide) (by decide)
    (by decide) (by decide)

/-- Counterexample to claim C4 as stated: `oddH` is a header line whose
block contains no `inet ` line, yet no record at all is emitted for it
(the extracted name is empty and the end-of-input flush drops it). -/
theorem C4_counterexample :
    isHeader oddH = true ∧ hasInet oddH = false ∧ parse [oddH] = [] := by decide

/-- Claim C4 (corrected): for an interface whose block contains no
`inet ` line, the emitted record carries the sentinel address — when the
block ends at a following header line this is unconditional, and when the
block ends at end of input it requires the extracted name to be non-empty
(otherwise the interface is dropped, see `C4_counterexample`). -/
theorem C4_no_inet_sentinel (pre : List Line) (h : Line) (mid : List Line)
    (hH : isHeader h = true)
    (hmid : ∀ l ∈ mid, isHeader l = false ∧ hasInet l = false) :
    (∀ (h2 : Line) (rest : List Line), isHeader h2 = true →
        (parse (pre ++ h :: (mid ++ h2 :: rest))).get? (headerCount pre)
          = some (lineName h, sentinel))
    ∧ (lineName h ≠ [] →
        (parse (pre ++ h :: mid)).get? (headerCount pre) = some (lineName h, sentinel)) := by
  obtain ⟨p, hp⟩ := headerPos_of_isHeader h hH
  obtain ⟨P, hPlen, hPeq⟩ := parse_block pre h p hp
  constructor
  · intro h2 rest hH2
    obtain ⟨p2, hp2⟩ := headerPos_of_isHeader h2 hH2
    rw [hPeq (mid ++ h2 :: rest), parseLines_clean _ mid _ hmid,
      parseLines_header_some _ h2 rest p2 hp2, ← hPlen, getq_append_mid]
    simp [lineName, hp]
  · intro hne
    have hcl := parseLines_clean (some (extractName h p)) mid [] hmid
    rw [List.append_nil] at hcl
    have hne2 : ¬ extractName h p = [] := by simpa [lineName, hp] using hne
    have hfl : parseLines (some (extractName h p)) ([] : List Line)
        = [(extractName h p, sentinel)] := by
      simp [parseLines, flushState, hne2]
    rw [hPeq mid, hcl, hfl, ← hPlen]
    have := getq_append_mid P (extractName h p, sentinel) []
    rw [this]
    simp [lineName, hp]

/-- Witness for the amended C4 at concrete inputs (both block endings). -/
theorem C4_no_inet_sentinel_witness :
    (parse ([] ++ sampleH :: ([sampleMid] ++ sampleH2 :: []))).get? (headerCount [])
      = some (lineName sampleH, sentinel)
    ∧ (parse ([] ++ sampleH :: [sampleMid])).get? (headerCount [])
      = some (lineName sampleH, sentinel) :=
  ⟨(C4_no_inet_sentinel [] sampleH [sampleMid] (by decide) (by decide)).1 sampleH2 []
      (by decide),
   (C4_no_inet_sentinel [] sampleH [sampleMid] (by decide) (by decide)).2 (by decide)⟩

/-- Claim C6 (confirmed): the record of an interface is decided by the
first `inet ` line of its block, and once it is emitted the scan resumes
as a fresh parse, in which any line without the header marker — in
particular any further `inet ` line before the next header — contributes
nothing. -/
theorem C6_first_inet_only :
    (∀ (pre : List Line) (h : Line) (mid : List Line) (a : Line) (rest : List Line),
        isHeader h = true →
        (∀ l ∈ mid, isHeader l = false ∧ hasInet l = false) →
        isHeader a = false → hasInet a = true →
        parse (pre ++ h :: (mid ++ a :: rest))
          = parse (pre ++ h :: (mid ++ [a])) ++ parse rest)
    ∧ (∀ (l : Line) (ls : List Line), isHeader l = false →
        parse (l :: ls) = parse ls) := by
  constructor
  · intro pre h mid a rest hH hmid hna hia
    obtain ⟨p, hp⟩ := headerPos_of_isHeader h hH
    obtain ⟨q, hq⟩ := inetPos_of_hasInet a hia
    obtain ⟨P, hPlen, hPeq⟩ := parse_block pre h p hp
    rw [hPeq (mid ++ a :: rest), hPeq (mid ++ [a]),
      parseLines_clean _ mid _ hmid, parseLines_clean _ mid _ hmid,
      parseLines_inet _ a rest q (headerPos_eq_none a hna) hq,
      parseLines_inet _ a [] q (headerPos_eq_none a hna) hq]
    simp [parse, parseLines, flushState, List.append_assoc]
  · intro l ls hl
    exact parseLines_none_skip l ls hl

/-- Witness for C6 at a concrete input: a second `inet ` line after an
address has been captured is ignored. -/
theorem C6_first_inet_only_witness :
    parse ([] ++ sampleH :: ([] ++ sampleA :: [sampleA2]))
      = parse ([] ++ sampleH :: ([] ++ [sampleA])) ++ parse [sampleA2]
    ∧ parse (sampleA2 :: []) = parse [] :=
  ⟨C6_first_inet_only.1 [] sampleH [] sampleA [sampleA2] (by decide) (by decide) (by decide)
      (by decide),
   C6_first_inet_only.2 sampleA2 [] (by decide)⟩

/-- Counterexample to claim C1 as stated: the input consisting of the one
header line `oddH` has one header-marker line but parses to the empty
sequence, because the extracted name is empty and the end-of-input flush
drops the interface. -/
theorem C1_counterexample :
    headerCount [oddH] = 1 ∧ (parse [oddH]).length ≠ headerCount [oddH] := by decide

/-- Claim C1 (corrected): for inputs with zero header-marker lines the
parse is empty (unconditionally); the length of the output equals the
number of header-marker lines provided every header line extracts a
non-empty name (see `C1_counterexample` for the empty-name exception). -/
theorem C1_record_per_header (ls : List Line) :
    (headerCount ls = 0 → parse ls = [])
    ∧ ((∀ l ∈ ls, isHeader l = true → lineName l ≠ []) →
        (parse ls).length = headerCount ls) := by
  constructor
  · exact parse_no_header ls
  · intro hnames
    have := parseLines_length ls none (by intro n hn; cases hn) hnames
    simpa [parse, optCount] using this

/-- Witness for the amended C1 at concrete inputs. -/
theorem C1_record_per_header_witness :
    parse [sampleMid] = []
    ∧ (parse [sampleH, sampleA, sampleH2]).length = headerCount [sampleH, sampleA, sampleH2] :=
  ⟨(C1_record_per_header [sampleMid]).1 (by decide),
   (C1_record_per_header [sampleH, sampleA, sampleH2]).2 (by decide)⟩

/-- Counterexample to claim C2 as stated: a header line whose marker sits
at index 3 extracts an empty name, and when an `inet ` line follows, a
record with an empty name is appended to the output. -/
theorem C2_counterexample :
    ¬ (∀ r ∈ parse [oddH, sampleA2], r.1 ≠ []) := by decide

/-- Claim C2 (corrected): every record appended to the output has a
non-empty name, provided every header line of the input extracts a
non-empty name (marker not at index 3 and line longer than the marker;
see `C2_counterexample` for the exception). -/
theorem C2_name_nonempty (ls : List Line)
    (hnames : ∀ l ∈ ls, isHeader l = true → lineName l ≠ []) :
    ∀ r ∈ parse ls, r.1 ≠ [] :=
  parseLines_names ls none (by intro n hn; cases hn) hnames

/-- Witness for the amended C2 at a concrete input and record. -/
theorem C2_name_nonempty_witness :
    ((("lo").toList, ("127.0.0.1").toList) : Line × Line).1 ≠ [] :=
  C2_name_nonempty [sampleH, sampleA, sampleH2] (by decide)
    ((("lo").toList, ("127.0.0.1").toList)) (by decide)

/-- Claim C5 (confirmed): the n-th record of the output corresponds to
the n-th header-marker line of the input — its name is the name extracted
from that header line, so output order follows header order. -/
theorem C5_order_preserved (ls : List Line) (n : Nat) (r : Line × Line)
    (hr : (parse ls).get? n = some r) :
    ((ls.filter isHeader).get? n).map lineName = some r.1 := by
  obtain ⟨t, ht⟩ := names_agree ls none
  simp only [optNames, List.nil_append] at ht
  have hn : n < ((parseLines none ls).map Prod.fst).length := by
    rw [List.length_map]
    exact getq_some_lt _ n r hr
  have hleft := getq_append_left ((parseLines none ls).map Prod.fst) t n hn
  rw [ht] at hleft
  rw [getq_map] at hleft
  rw [hleft, getq_map]
  simp only [parse] at hr
  rw [hr]
  rfl

/-- Witness for C5 at a concrete input. -/
theorem C5_order_preserved_witness :
    (([sampleH, sampleA, sampleH2].filter isHeader).get? 1).map lineName
      = some (lineName sampleH2) :=
  C5_order_preserved [sampleH, sampleA, sampleH2] 1 (lineName sampleH2, sentinel) (by decide)

/-! ### Checked run: `substr` bounds never fail

`std::string::substr(pos, count)` throws `std::out_of_range` when
`pos > size()`.  The checked variants below return `none` exactly when the
C++ call would throw; the parser run in this checked mode always succeeds
and agrees with the plain run. -/

/-- Checked `line.substr(3, pos - 3)`: fails iff `3 > line.size()`. -/
def extractNameChk (l : Line) (p : Nat) : Option Line :=
  if 3 ≤ l.length then some (extractName l p) else none

/-- Checked `line.substr(pos + 5, ...)`: fails iff `pos + 5 > line.size()`. -/
def inetAddrChk (l : Line) (p : Nat) : Option Line :=
  if p + 5 ≤ l.length then some (inetAddr l p) else none

/-- The parsing loops with every `substr` call checked. -/
def parseLinesChk : Option Line → List Line → Option (List (Line × Line))
  | st, [] => some (flushState st)
  | st, l :: ls =>
    match headerPos l with
    | some p =>
      match extractNameChk l p with
      | some nm =>
        match st with
        | none => parseLinesChk (some nm) ls
        | some n => (parseLinesChk (some nm) ls).map (fun r => (n, sentinel) :: r)
      | none => none
    | none =>
      match st with
      | none => parseLinesChk none ls
      | some n =>
        match findSub inetPat l with
        | some q =>
          match inetAddrChk l q with
          | some a => (parseLinesChk none ls).map (fun r => (n, a) :: r)
          | none => none
        | none => parseLinesChk (some n) ls

/-- The whole checked parse. -/
def parseChecked (ls : List Line) : Option (List (Line × Line)) :=
  parseLinesChk none ls

theorem beginsWith_length (pat : Line) : ∀ l : Line, beginsWith pat l = true →
    pat.length ≤ l.length := by
  induction pat with
  | nil => intro l _; simp
  | cons a as ih =>
    intro l hb
    cases l with
    | nil => simp [beginsWith] at hb
    | cons b bs =>
      simp only [beginsWith, Bool.and_eq_true] at hb
      have := ih bs hb.2
      simp only [List.length_cons]
      omega

theorem findSub_bound (pat : Line) : ∀ (l : Line) (p : Nat),
    findSub pat l = some p → p + pat.length ≤ l.length := by
  intro l
  induction l with
  | nil =>
    intro p hp
    by_cases hb : beginsWith pat [] = true
    · simp only [findSub, hb, if_true, Option.some.injEq] at hp
      have := beginsWith_length pat [] hb
      simp at this
      simp [← hp, this]
    · simp only [findSub, Bool.not_eq_true] at hp hb
      rw [hb] at hp
      simp at hp
  | cons c t ih =>
    intro p hp
    by_cases hb : beginsWith pat (c :: t) = true
    · simp only [findSub, hb, if_true, Option.some.injEq] at hp
      have := beginsWith_length pat (c :: t) hb
      omega
    · simp only [findSub, Bool.not_eq_true] at hp hb
      rw [hb] at hp
      simp at hp
      obtain ⟨p0, hp0, hpe⟩ := hp
      have := ih p0 hp0
      simp only [List.length_cons]
      omega

/-- The checked run never fails and returns exactly the plain run. -/
theorem parseLinesChk_eq (ls : List Line) : ∀ st : Option Line,
    parseLinesChk st ls = some (parseLines st ls) := by
  induction ls with
  | nil => intro st; cases st <;> rfl
  | cons l t ih =>
    intro st
    cases hh : headerPos l with
    | some p =>
      have h3 : 3 ≤ l.length := by
        have := findSub_bound headerPat l p hh
        simp [headerPat] at this
        omega
      cases st with
      | none =>
        simp [parseLinesChk, parseLines, lineOut, stepState, hh, extractNameChk, h3, ih]
      | some n =>
        simp [parseLinesChk, parseLines, lineOut, stepState, hh, extractNameChk, h3, ih]
    | none =>
      cases st with
      | none => simp [parseLinesChk, parseLines, lineOut, stepState, hh, ih]
      | some n =>
        cases hi : findSub inetPat l with
        | some q =>
          have h5 : q + 5 ≤ l.length := by
            have := findSub_bound inetPat l q hi
            simp [inetPat] at this
            omega
          simp [parseLinesChk, parseLines, lineOut, stepState, hh, hi, inetAddrChk, h5, ih]
        | none =>
          simp [parseLinesChk, parseLines, lineOut, stepState, hh, hi, ih]

/-- Claim C7 (confirmed): the parser is total — every `substr` access the
code performs is in range, so the checked run always returns a result,
equal to the plain run — and any line containing neither marker is
silently skipped without affecting output or state. -/
theorem C7_total_and_skip :
    (∀ ls : List Line, parseChecked ls = some (parse ls))
    ∧ (∀ (st : Option Line) (l : Line) (ls : List Line),
        isHeader l = false → hasInet l = false →
        parseLines st (l :: ls) = parseLines st ls) := by
  constructor
  · intro ls
    exact parseLinesChk_eq ls none
  · intro st l ls h1 h2
    exact parseLines_skip st l ls h1 h2

/-- Witness for C7 at a concrete input. -/
theorem C7_total_and_skip_witness :
    parseChecked [sampleH, sampleA] = some (parse [sampleH, sampleA])
    ∧ parseLines (some ("lo").toList) (sampleMid :: [])
      = parseLines (some ("lo").toList) [] :=
  ⟨C7_total_and_skip.1 [sampleH, sampleA],
   C7_total_and_skip.2 (some ("lo").toList) sampleMid [] (by decide) (by decide)⟩

/-- Claim C8 (confirmed): the parser is a pure function of its input line
sequence — two runs on equal inputs produce equal output sequences; the
embedding carries no state between calls (`parse` always starts from the
cleared scan state). -/
theorem C8_deterministic (ls1 ls2 : List Line) (h : ls1 = ls2) :
    parse ls1 = parse ls2 := by
  rw [h]

/-- Witness for C8 at a concrete input. -/
theorem C8_deterministic_witness :
    parse [sampleH, sampleA, sampleH2] = parse [sampleH, sampleA, sampleH2] :=
  C8_deterministic [sampleH, sampleA, sampleH2] [sampleH, sampleA, sampleH2] rfl

/-! ### The selection step (src/main.cpp:141-156)

`std::size_t interfaceIndex` is read from standard input, decremented
(with `size_t` wrap-around), and used to index the record list after a
bounds check.  `2^64` models the width of `size_t`; on extraction failure
(non-numeric input) the C++11 stream stores `0`, and a negative input
`-m` stores `2^64 - m`, so all the error classes of the claim are values
of the stored integer. -/

/-- The width of `size_t`. -/
def W64 : Nat := 18446744073709551616

/-- `--interfaceIndex` on a `size_t` holding `v` (src/main.cpp:143). -/
def decIndex (v : Nat) : Nat := (v + (W64 - 1)) % W64

/-- The bounds check and lookup (src/main.cpp:146-152): `some` of the
selected record when `interfaceIndex < interfaceList.size()`, `none` when
the program prints the error and returns 1.  (The `interfaceIndex < 0`
half of the check is vacuous on the unsigned type and drops out.) -/
def select (recs : List (Line × Line)) (v : Nat) : Option (Line × Line) :=
  recs.get? (decIndex v)

/-- The printed `IPADDR` value (src/main.cpp:154): the sentinel stands in
for an empty address. -/
def displayAddr (a : Line) : Line := if a = [] then sentinel else a

/-- The two printed lines on success, as (IFACE value, IPADDR value). -/
def selOutput (recs : List (Line × Line)) (v : Nat) : Option (Line × Line) :=
  (select recs v).map (fun r => (r.1, displayAddr r.2))

/-- The process exit code of the selection step. -/
def exitCode (recs : List (Line × Line)) (v : Nat) : Nat :=
  match select recs v with
  | some _ => 0
  | none => 1

theorem decIndex_eq (v : Nat) (h1 : 1 ≤ v) (h2 : v < W64) : decIndex v = v - 1 := by
  unfold decIndex
  have he : v + (W64 - 1) = (v - 1) + W64 := by unfold W64 at *; omega
  rw [he, Nat.add_mod_right]
  exact Nat.mod_eq_of_lt (by unfold W64 at *; omega)

theorem decIndex_zero : decIndex 0 = W64 - 1 := by
  unfold decIndex
  exact Nat.mod_eq_of_lt (by unfold W64; omega)

/-- Claim C9 (confirmed): with N parsed records, the selection accepts
exactly the integers in `[1, N]` — a selection of `k` in range prints the
k-th record's fields and exits 0; the stored value for a non-numeric
input (0), an explicit 0, a negative input `-m` (stored as `2^64 - m`),
or any `k > N` fails the bounds check, prints an error and exits 1. -/
theorem C9_selection_range (recs : List (Line × Line)) (hN : recs.length < W64) :
    (∀ k, 1 ≤ k → k ≤ recs.length →
        select recs k = recs.get? (k - 1)
        ∧ (∀ r, recs.get? (k - 1) = some r → selOutput recs k = some (r.1, displayAddr r.2))
        ∧ exitCode recs k = 0)
    ∧ (select recs 0 = none ∧ exitCode recs 0 = 1)
    ∧ (∀ k, recs.length < k → k < W64 → select recs k = none ∧ exitCode recs k = 1)
    ∧ (∀ m, 1 ≤ m → recs.length + m < W64 →
        select recs (W64 - m) = none ∧ exitCode recs (W64 - m) = 1) := by
  refine ⟨?_, ⟨?_, ?_⟩, ?_, ?_⟩
  · intro k hk1 hk2
    have hke : select recs k = recs.get? (k - 1) := by
      unfold select
      rw [decIndex_eq k hk1 (by omega)]
    refine ⟨hke, ?_, ?_⟩
    · intro r hr
      unfold selOutput
      rw [hke, hr]
      rfl
    · have hlt : k - 1 < recs.length := by omega
      have := getq_isSome recs (k - 1) hlt
      unfold exitCode
      rw [hke]
      cases hg : recs.get? (k - 1) with
      | none => rw [hg] at this; simp at this
      | some r => rfl
  · unfold select
    rw [decIndex_zero]
    exact getq_ge recs (W64 - 1) (by omega)
  · unfold exitCode select
    rw [decIndex_zero, getq_ge recs (W64 - 1) (by omega)]
  · intro k hk1 hk2
    have hke : select recs k = none := by
      unfold select
      rw [decIndex_eq k (by omega) hk2]
      exact getq_ge recs (k - 1) (by omega)
    exact ⟨hke, by unfold exitCode; rw [hke]⟩
  · intro m hm1 hm2
    have hke : select recs (W64 - m) = none := by
      unfold select
      rw [decIndex_eq (W64 - m) (by unfold W64 at *; omega) (by unfold W64 at *; omega)]
      exact getq_ge recs (W64 - m - 1) (by unfold W64 at *; omega)
    exact ⟨hke, by unfold exitCode; rw [hke]⟩

/-- A concrete parsed record list (the parse of scenario 1). -/
def sampleRecs : List (Line × Line) :=
  [(("lo").toList, ("127.0.0.1").toList), (("eth0").toList, sentinel)]

/-- Witness for C9 at a concrete record list: `1` is accepted, `0`, `3`
and `-5` are rejected. -/
theorem C9_selection_range_witness :
    select sampleRecs 1 = sampleRecs.get? 0
    ∧ exitCode sampleRecs 1 = 0
    ∧ select sampleRecs 0 = none
    ∧ select sampleRecs 3 = none
    ∧ select sampleRecs (W64 - 5) = none :=
  ⟨((C9_selection_range sampleRecs (by decide)).1 1 (by decide) (by decide)).1,
   ((C9_selection_range sampleRecs (by decide)).1 1 (by decide) (by decide)).2.2,
   (C9_selection_range sampleRecs (by decide)).2.1.1,
   ((C9_selection_range sampleRecs (by decide)).2.2.1 3 (by decide) (by decide)).1,
   ((C9_selection_range sampleRecs (by decide)).2.2.2 5 (by decide) (by decide)).1⟩

end IfacePicker
